import Mathlib

/-
Shallow embedding of jss::ticket_map from src/ticket_map.hpp (the complete
variant, lines 1-479).  Tickets are modelled as Nat with an explicit maximum
value tmax (for an integral Ticket type, tmax is numeric_limits<T>::max(),
e.g. 255 for an 8-bit unsigned ticket).  The backing std::vector of
(Ticket, optional<Value>) pairs is a List (Nat × Option α); an iterator is an
index into that list, with the index equal to the list length playing the
role of the end() sentinel.  Throwing (std::overflow_error from emplace,
std::out_of_range from operator[]) is modelled by returning none.

The only behaviour of the C++ code that is not a pure function of this state
is the capacity check in emplace: `if(!insert_capacity()) reserve(size()*2)`
fires depending on the std::vector capacity, which is implementation defined.
It is modelled by an explicit oracle bit b passed to emplace: b = true means
insert_capacity() was 0, in which case the code calls reserve(size()*2), and
both branches of reserve drop exactly the tombstoned slots, so at this level
of abstraction the reserve call amounts to filtering out tombstones.
Theorems about traces quantify over all oracle choices.
-/

namespace TicketMapModel

/-- State of a jss::ticket_map: the overflow flag, the next ticket value to
issue (member nextId), the backing vector of (ticket, optional value) slots
(member data), and the live-entry count (member filledItems). -/
structure ticket_map (α : Type) where
  overflow : Bool
  nextId : Nat
  data : List (Nat × Option α)
  filledItems : Nat
deriving DecidableEq, Repr

/-- The default-constructed map: ticket_map() : nextId(), filledItems(0),
with the overflow member initialised to false and an empty vector. -/
def ticket_map.empty {α : Type} : ticket_map α :=
  ⟨false, 0, [], 0⟩

/-- Embeds next_valid: advance the iterator (index) i while it points at a
slot whose optional value is empty, stopping at the first occupied slot or at
the end of the data. -/
def next_valid {α : Type} (data : List (Nat × Option α)) (i : Nat) : Nat :=
  if h : i < data.length then
    if (data.get ⟨i, h⟩).2.isSome then i else next_valid data (i + 1)
  else i
termination_by data.length - i
decreasing_by
  omega

/-- Embeds the std::lower_bound call in lookup, per the standard contract of
std::lower_bound on a partitioned range: the index of the first slot whose
ticket is not less than the sought ticket (the length of the data when every
slot's ticket is less). -/
def lower_bound {α : Type} (data : List (Nat × Option α)) (t : Nat) : Nat :=
  data.findIdx (fun e => ! decide (e.1 < t))

/-- Embeds lookup: binary-search the data for a ticket; the result is none
(the end iterator) when the position found is the end, holds a different
ticket, or is a tombstone, and otherwise the index of the slot. -/
def lookup {α : Type} (data : List (Nat × Option α)) (t : Nat) : Option Nat :=
  let pos := lower_bound data t
  match data[pos]? with
  | none => none
  | some e => if e.1 = t ∧ e.2.isSome then some pos else none

/-- Embeds the integral increment_with_overflow_check: returns the assigned
id (the pre-increment value), the new counter value, and the new overflow
flag.  When the counter is already at the maximum, the overflow flag is set
and the counter is left unchanged; otherwise the counter is incremented. -/
def increment_with_overflow_check (tmax : Nat) (value : Nat) (overflow : Bool) :
    Nat × Nat × Bool :=
  (value,
   if value = tmax then value else value + 1,
   overflow || decide (value = tmax))

/-- Embeds emplace for an integral ticket type with maximum tmax.  Returns
none when the map throws std::overflow_error (overflow already raised), and
otherwise the assigned ticket together with the new state.  The oracle bit b
tells whether insert_capacity() was 0, in which case reserve(size()*2) runs
before the append; both branches of reserve drop exactly the tombstoned
slots. -/
def emplace {α : Type} (tmax : Nat) (m : ticket_map α) (b : Bool) (v : α) :
    Option (Nat × ticket_map α) :=
  if m.overflow then none
  else
    let r := increment_with_overflow_check tmax m.nextId m.overflow
    let data1 := if b then m.data.filter (fun e => e.2.isSome) else m.data
    some (r.1, ⟨r.2.2, r.2.1, data1 ++ [(r.1, some v)], m.filledItems + 1⟩)

/-- Embeds compact on the data: std::remove_if of the slots with an empty
optional, i.e. keep exactly the occupied slots, preserving their order. -/
def compact {α : Type} (data : List (Nat × Option α)) :
    List (Nat × Option α) :=
  data.filter (fun e => e.2.isSome)

/-- Embeds needs_compaction: filledItems < data.size() / 2, with the C++
size_t division (floor division on Nat). -/
def needs_compaction {α : Type} (m : ticket_map α) : Bool :=
  decide (m.filledItems < m.data.length / 2)

/-- Embeds erase_entry: given the lookup result (none = end iterator), reset
the slot's optional, advance to the next valid slot, decrement filledItems,
and, when needs_compaction fires, remember the ticket under the advanced
iterator, compact, and re-find that ticket.  Returns the new state and the
returned iterator (index; the data length is the end sentinel). -/
def erase_entry {α : Type} (m : ticket_map α) (res : Option Nat) :
    ticket_map α × Nat :=
  match res with
  | none => (m, m.data.length)
  | some i =>
    let k := ((m.data[i]?).map Prod.fst).getD 0
    let data1 := m.data.set i (k, none)
    let j := next_valid data1 i
    let filled1 := m.filledItems - 1
    let m1 : ticket_map α := ⟨m.overflow, m.nextId, data1, filled1⟩
    if needs_compaction m1 then
      let tkt := (data1[j]?).map Prod.fst
      let data2 := compact data1
      let m2 : ticket_map α := ⟨m.overflow, m.nextId, data2, filled1⟩
      match tkt with
      | some tk => (m2, (lookup data2 tk).getD data2.length)
      | none => (m2, data2.length)
    else (m1, j)

/-- Embeds erase(ticket): erase_entry(lookup(data, ticket)). -/
def erase {α : Type} (m : ticket_map α) (t : Nat) : ticket_map α × Nat :=
  erase_entry m (lookup m.data t)

/-- Embeds find: the index of the found slot, or the end sentinel (the data
length) when lookup fails. -/
def find {α : Type} (m : ticket_map α) (t : Nat) : Nat :=
  (lookup m.data t).getD m.data.length

/-- Embeds count: 0 when lookup returns the end iterator, 1 otherwise. -/
def count {α : Type} (m : ticket_map α) (t : Nat) : Nat :=
  if lookup m.data t = none then 0 else 1

/-- Embeds operator[] via the private index helper: none models throwing
std::out_of_range, and otherwise the stored value is returned. -/
def index {α : Type} (m : ticket_map α) (t : Nat) : Option α :=
  match lookup m.data t with
  | none => none
  | some i =>
    match m.data[i]? with
    | some e => e.2
    | none => none

/-- Embeds clear: data.clear() and filledItems = 0; nextId and the overflow
flag are untouched. -/
def clear {α : Type} (m : ticket_map α) : ticket_map α :=
  ⟨m.overflow, m.nextId, [], 0⟩

/-- Embeds swap: data, filledItems and nextId are exchanged; the overflow
member is not mentioned in the C++ swap and stays with its original map. -/
def swap {α : Type} (a b : ticket_map α) : ticket_map α × ticket_map α :=
  (⟨a.overflow, b.nextId, b.data, b.filledItems⟩,
   ⟨b.overflow, a.nextId, a.data, a.filledItems⟩)

/-- Embeds reserve(count): when count > size() the data is rebuilt from the
occupied slots only (into storage reserved for count slots); otherwise
compact() runs.  At the level of the slot sequence both branches keep exactly
the occupied slots in order. -/
def reserve {α : Type} (m : ticket_map α) (n : Nat) : ticket_map α :=
  if m.filledItems < n then
    ⟨m.overflow, m.nextId, m.data.filter (fun e => e.2.isSome), m.filledItems⟩
  else
    ⟨m.overflow, m.nextId, compact m.data, m.filledItems⟩

/-- The branch condition of reserve, literally from the source: the rebuild
branch (which allocates fresh backing storage) runs iff count > size(), i.e.
iff the requested count exceeds filledItems, the live count. -/
def reserve_grows {α : Type} (m : ticket_map α) (n : Nat) : Bool :=
  decide (m.filledItems < n)

/-- Embeds the loop of the range insert: emplace each value in order; a
throwing emplace (overflow) propagates as none. Each value carries its
capacity oracle bit. -/
def insertLoop {α : Type} (tmax : Nat) (m : ticket_map α) :
    List (Bool × α) → Option (ticket_map α)
  | [] => some m
  | (b, v) :: rest =>
    match emplace tmax m b v with
    | some (_, m2) => insertLoop tmax m2 rest
    | none => none

/-- Embeds insert(first, last): the slot index data.size() is captured before
the loop, each value is emplaced, and the returned cursor is
data.begin() + index, i.e. the captured index into the final data. -/
def insertRange {α : Type} (tmax : Nat) (m : ticket_map α)
    (vbs : List (Bool × α)) : Option (ticket_map α × Nat) :=
  (insertLoop tmax m vbs).map (fun m2 => (m2, m.data.length))

/-- Embeds the iteration from begin() to end(): collect the slot under the
iterator and advance with next_valid(++iter), as operator++ does. -/
def collect {α : Type} (data : List (Nat × Option α)) (i : Nat) :
    List (Nat × Option α) :=
  if h : i < data.length then
    data.get ⟨i, h⟩ :: collect data (next_valid data (i + 1))
  else []
termination_by data.length - i
decreasing_by
  have key : ∀ n j, data.length - j ≤ n → j ≤ next_valid data j := by
    intro n
    induction n with
    | zero =>
      intro j hle
      rw [next_valid]
      split
      · omega
      · exact Nat.le_refl j
    | succ n ih =>
      intro j hle
      rw [next_valid]
      split
      · split
        · exact Nat.le_refl j
        · have := ih (j + 1) (by omega)
          omega
      · exact Nat.le_refl j
  have := key (data.length - (i + 1)) (i + 1) (Nat.le_refl _)
  omega

/-- An operation a caller can perform on one container, used to describe the
reachable states: an insert (with its capacity-oracle bit and value), an
erase by ticket, a clear, or a reserve.  A failed insert (overflow) throws
before mutating anything, so the trace continues from the unchanged state. -/
inductive Op (α : Type) where
  | ins (b : Bool) (v : α)
  | del (t : Nat)
  | clr
  | rsv (n : Nat)
deriving DecidableEq, Repr

/-- A run state: the container plus two ghost fields drawn from the spec's
vocabulary: live holds the tickets that have been assigned by some insert and
not erased since (cleared by clear), and issued holds every ticket ever
returned by a successful insert, in issuance order. -/
structure RunState (α : Type) where
  m : ticket_map α
  live : List Nat
  issued : List Nat
deriving DecidableEq, Repr

/-- The run state of a freshly constructed container. -/
def initRS {α : Type} : RunState α :=
  ⟨ticket_map.empty, [], []⟩

/-- One step of a run: apply a single operation to the container and update
the ghost fields accordingly. -/
def stepOp {α : Type} (tmax : Nat) (s : RunState α) : Op α → RunState α
  | .ins b v =>
    match emplace tmax s.m b v with
    | some (id, m2) => ⟨m2, id :: s.live, s.issued ++ [id]⟩
    | none => s
  | .del t => ⟨(erase s.m t).1, s.live.filter (fun u => u ≠ t), s.issued⟩
  | .clr => ⟨clear s.m, [], s.issued⟩
  | .rsv n => ⟨reserve s.m n, s.live, s.issued⟩

/-- Run a list of operations from a given run state. -/
def runFrom {α : Type} (tmax : Nat) (s : RunState α) : List (Op α) → RunState α
  | [] => s
  | op :: ops => runFrom tmax (stepOp tmax s op) ops

/-- Run a list of operations from a freshly constructed container. -/
def run {α : Type} (tmax : Nat) (ops : List (Op α)) : RunState α :=
  runFrom tmax initRS ops

/-- Discriminator for traces made of insert and erase operations only (the
shape of trace claim C1 quantifies over). -/
def Op.isInsOrDel {α : Type} : Op α → Bool
  | .ins _ _ => true
  | .del _ => true
  | _ => false

/-- A pure-insert trace: one insert per value, each with its capacity-oracle
bit taken from the head of bs (false when bs is exhausted). -/
def insOps {α : Type} : List α → List Bool → List (Op α)
  | [], _ => []
  | v :: vs, bs => .ins (bs.headD false) v :: insOps vs bs.tail

/-- The bundle of data-structure invariants maintained by every operation:
slots sorted strictly by ticket, every ticket below the allocator counter
(or equal to it once overflow is raised), filledItems counting the occupied
slots, tombstone density bounded, the ghost live set describing exactly the
occupied slots, and the issued tickets strictly increasing and below the
counter. -/
structure Inv {α : Type} (tmax : Nat) (s : RunState α) : Prop where
  sorted : (s.m.data.map Prod.fst).Pairwise (· < ·)
  keys_lt : ∀ e ∈ s.m.data, e.1 < s.m.nextId ∨ (e.1 = s.m.nextId ∧ s.m.overflow = true)
  filled_eq : s.m.filledItems = (s.m.data.filter (fun e => e.2.isSome)).length
  density : s.m.data.length ≤ 2 * s.m.filledItems + 1
  live_iff : ∀ t, t ∈ s.live ↔ ∃ e ∈ s.m.data, e.1 = t ∧ e.2.isSome = true
  issued_sorted : s.issued.Pairwise (· < ·)
  issued_lt : ∀ t ∈ s.issued, t < s.m.nextId ∨ (t = s.m.nextId ∧ s.m.overflow = true)
  nextId_le : s.m.nextId ≤ tmax

section NextValidLemmas

variable {α : Type}

/-- The iterator index produced by next_valid never moves backwards. -/
theorem next_valid_ge (data : List (Nat × Option α)) (i : Nat) :
    i ≤ next_valid data i := by
  have key : ∀ n j, data.length - j ≤ n → j ≤ next_valid data j := by
    intro n
    induction n with
    | zero =>
      intro j hle
      rw [next_valid]
      split
      · omega
      · exact Nat.le_refl j
    | succ n ih =>
      intro j hle
      rw [next_valid]
      split
      · split
        · exact Nat.le_refl j
        · have := ih (j + 1) (by omega)
          omega
      · exact Nat.le_refl j
  exact key (data.length - i) i (Nat.le_refl _)

/-- Starting at or before the end, next_valid stops at or before the end. -/
theorem next_valid_le_length (data : List (Nat × Option α)) (i : Nat)
    (hi : i ≤ data.length) : next_valid data i ≤ data.length := by
  have key : ∀ n j, data.length - j ≤ n → j ≤ data.length →
      next_valid data j ≤ data.length := by
    intro n
    induction n with
    | zero =>
      intro j hle hj
      rw [next_valid]
      split
      · omega
      · exact hj
    | succ n ih =>
      intro j hle hj
      rw [next_valid]
      split
      · split
        · exact hj
        · exact ih (j + 1) (by omega) (by omega)
      · exact hj
  exact key (data.length - i) i (Nat.le_refl _) hi

/-- When next_valid stops strictly before the end, the slot it stops at is
occupied. -/
theorem next_valid_isSome (data : List (Nat × Option α)) (i : Nat) :
    ∀ e, data[next_valid data i]? = some e → e.2.isSome := by
  have key : ∀ n j, data.length - j ≤ n →
      ∀ e, data[next_valid data j]? = some e → e.2.isSome := by
    intro n
    induction n with
    | zero =>
      intro j hle e he
      rw [next_valid] at he
      split at he
      · omega
      · rw [List.getElem?_eq_none (by omega)] at he
        cases he
    | succ n ih =>
      intro j hle e he
      rw [next_valid] at he
      split at he
      · rename_i hj
        split at he
        · rename_i hslot
          rw [List.getElem?_eq_getElem hj] at he
          cases he
          simpa [List.get_eq_getElem] using hslot
        · exact ih (j + 1) (by omega) e he
      · rename_i hj
        rw [List.getElem?_eq_none (by omega)] at he
        cases he
  exact key (data.length - i) i (Nat.le_refl _)

/-- Skipping tombstones with next_valid does not change the occupied slots
remaining ahead of the iterator. -/
theorem filter_drop_next_valid (data : List (Nat × Option α)) (i : Nat) :
    ((data.drop (next_valid data i)).filter (fun e => e.2.isSome)) =
      (data.drop i).filter (fun e => e.2.isSome) := by
  have key : ∀ n j, data.length - j ≤ n →
      ((data.drop (next_valid data j)).filter (fun e => e.2.isSome)) =
        (data.drop j).filter (fun e => e.2.isSome) := by
    intro n
    induction n with
    | zero =>
      intro j hle
      rw [next_valid]
      split
      · omega
      · rfl
    | succ n ih =>
      intro j hle
      rw [next_valid]
      split
      · rename_i hj
        split
        · rfl
        · rename_i hslot
          rw [ih (j + 1) (by omega)]
          rw [List.drop_eq_getElem_cons hj]
          rw [List.filter_cons]
          simp only [List.get_eq_getElem] at hslot
          simp [hslot]
      · rfl
  exact key (data.length - i) i (Nat.le_refl _)

/-- The iteration protocol of the map (collect the slot under the iterator,
advance with next_valid) visits exactly the occupied slots remaining ahead of
the starting point, in order. -/
theorem collect_next_valid (data : List (Nat × Option α)) (i : Nat) :
    collect data (next_valid data i) =
      (data.drop i).filter (fun e => e.2.isSome) := by
  have key : ∀ n j, data.length - j ≤ n →
      collect data (next_valid data j) =
        (data.drop j).filter (fun e => e.2.isSome) := by
    intro n
    induction n with
    | zero =>
      intro j hle
      have hj : data.length ≤ j := by omega
      have hnv : next_valid data j = j := by
        rw [next_valid]
        split
        · omega
        · rfl
      rw [hnv, collect]
      rw [dif_neg (by omega)]
      rw [List.drop_eq_nil_of_le hj]
      rfl
    | succ n ih =>
      intro j hle
      by_cases hj : next_valid data j < data.length
      · rw [collect, dif_pos hj]
        have hge : j ≤ next_valid data j := next_valid_ge data j
        have ihj : collect data (next_valid data (next_valid data j + 1)) =
            (data.drop (next_valid data j + 1)).filter (fun e => e.2.isSome) := by
          exact ih (next_valid data j + 1) (by omega)
        rw [ihj]
        rw [← filter_drop_next_valid data j]
        rw [List.drop_eq_getElem_cons hj]
        rw [List.filter_cons]
        have hsome : (data[next_valid data j]).2.isSome := by
          have := next_valid_isSome data j (data[next_valid data j])
            (List.getElem?_eq_getElem hj)
          exact this
        simp only [List.get_eq_getElem]
        simp [hsome]
      · rw [collect, dif_neg hj]
        rw [← filter_drop_next_valid data j]
        rw [List.drop_eq_nil_of_le (by omega)]
        rfl
  exact key (data.length - i) i (Nat.le_refl _)

/-- Iterating from begin() visits exactly the occupied slots of the data, in
their stored order. -/
theorem collect_begin (data : List (Nat × Option α)) :
    collect data (next_valid data 0) = data.filter (fun e => e.2.isSome) := by
  have := collect_next_valid data 0
  simpa using this

end NextValidLemmas

section LookupLemmas

variable {α : Type}

/-- Unfolding of lower_bound on a cons cell. -/
theorem lower_bound_cons (e : Nat × Option α) (rest : List (Nat × Option α))
    (t : Nat) :
    lower_bound (e :: rest) t =
      if e.1 < t then lower_bound rest t + 1 else 0 := by
  simp only [lower_bound, List.findIdx_cons]
  by_cases h : e.1 < t
  · simp [h]
  · simp [h]

/-- On a head slot whose ticket is below the sought one, lookup delegates to
the tail, shifting the found index by one. -/
theorem lookup_cons_lt (e : Nat × Option α) (rest : List (Nat × Option α))
    (t : Nat) (h : e.1 < t) :
    lookup (e :: rest) t = (lookup rest t).map (· + 1) := by
  simp only [lookup, lower_bound_cons, if_pos h]
  cases hm : rest[lower_bound rest t]? with
  | none => simp [List.getElem?_cons_succ, hm]
  | some e2 =>
    simp only [List.getElem?_cons_succ, hm]
    by_cases hc : e2.1 = t ∧ e2.2.isSome = true
    · simp [hc]
    · simp [hc]

/-- On a head slot whose ticket is not below the sought one, lookup examines
only the head slot. -/
theorem lookup_cons_ge (e : Nat × Option α) (rest : List (Nat × Option α))
    (t : Nat) (h : ¬ e.1 < t) :
    lookup (e :: rest) t =
      if e.1 = t ∧ e.2.isSome = true then some 0 else none := by
  simp only [lookup, lower_bound_cons, if_neg h]
  simp [List.getElem?_cons_zero]

/-- Whatever index lookup returns points at a slot holding the sought ticket
with an occupied value. -/
theorem lookup_some_spec (data : List (Nat × Option α)) (t i : Nat)
    (h : lookup data t = some i) :
    ∃ e, data[i]? = some e ∧ e.1 = t ∧ e.2.isSome = true := by
  cases hm : data[lower_bound data t]? with
  | none =>
    simp only [lookup, hm] at h
    cases h
  | some e =>
    simp only [lookup, hm] at h
    by_cases hc : e.1 = t ∧ e.2.isSome = true
    · rw [if_pos hc] at h
      cases h
      exact ⟨e, hm, hc⟩
    · rw [if_neg hc] at h
      cases h

/-- On sorted data, lookup succeeds exactly when some slot holds the sought
ticket with an occupied value: tombstoned and absent tickets are invisible. -/
theorem lookup_isSome_iff (data : List (Nat × Option α)) (t : Nat)
    (hs : (data.map Prod.fst).Pairwise (· < ·)) :
    (lookup data t).isSome = true ↔
      ∃ e ∈ data, e.1 = t ∧ e.2.isSome = true := by
  induction data with
  | nil => simp [lookup, lower_bound]
  | cons e rest ih =>
    rw [List.map_cons, List.pairwise_cons] at hs
    obtain ⟨hhead, htail⟩ := hs
    by_cases h : e.1 < t
    · rw [lookup_cons_lt e rest t h]
      have hmap : ((lookup rest t).map (· + 1)).isSome = (lookup rest t).isSome := by
        cases lookup rest t <;> rfl
      rw [hmap, ih htail]
      constructor
      · rintro ⟨x, hx, hxt, hxs⟩
        exact ⟨x, List.mem_cons_of_mem e hx, hxt, hxs⟩
      · rintro ⟨x, hx, hxt, hxs⟩
        rcases List.mem_cons.mp hx with hx | hx
        · subst hx
          omega
        · exact ⟨x, hx, hxt, hxs⟩
    · rw [lookup_cons_ge e rest t h]
      constructor
      · intro hc
        by_cases hc2 : e.1 = t ∧ e.2.isSome = true
        · exact ⟨e, List.mem_cons_self e rest, hc2⟩
        · rw [if_neg hc2] at hc
          cases hc
      · rintro ⟨x, hx, hxt, hxs⟩
        rcases List.mem_cons.mp hx with hx | hx
        · subst hx
          simp [hxt, hxs]
        · have : e.1 < x.1 := hhead x.1 (List.mem_map_of_mem Prod.fst hx)
          omega

/-- When no slot holds the sought ticket at all, lookup fails (this needs no
sortedness: lookup only ever answers with a slot holding the ticket). -/
theorem lookup_eq_none_of_no_key (data : List (Nat × Option α)) (t : Nat)
    (h : ∀ e ∈ data, e.1 ≠ t) : lookup data t = none := by
  cases hl : lookup data t with
  | none => rfl
  | some i =>
    obtain ⟨e, hm, ht, _⟩ := lookup_some_spec data t i hl
    exact absurd ht (h e (List.getElem?_mem hm))

end LookupLemmas

section SetLemmas

variable {α : Type}

/-- Overwriting a slot's value in place leaves the ticket sequence alone. -/
theorem map_fst_set_same (l : List (Nat × Option α)) (i : Nat)
    (e : Nat × Option α) (x : Option α) (h : l[i]? = some e) :
    (l.set i (e.1, x)).map Prod.fst = l.map Prod.fst := by
  induction l generalizing i with
  | nil => cases h
  | cons a rest ih =>
    cases i with
    | zero =>
      rw [List.getElem?_cons_zero] at h
      cases h
      rfl
    | succ i =>
      rw [List.getElem?_cons_succ] at h
      simp only [List.set_cons_succ, List.map_cons]
      rw [ih i h]

/-- Tombstoning one occupied slot decreases the occupied-slot count by
exactly one. -/
theorem filter_length_set_none (l : List (Nat × Option α)) (i : Nat)
    (e : Nat × Option α) (h : l[i]? = some e) (hlive : e.2.isSome = true) :
    ((l.set i (e.1, none)).filter (fun e => e.2.isSome)).length + 1 =
      (l.filter (fun e => e.2.isSome)).length := by
  induction l generalizing i with
  | nil => cases h
  | cons a rest ih =>
    cases i with
    | zero =>
      rw [List.getElem?_cons_zero] at h
      cases h
      simp [List.filter_cons, hlive]
    | succ i =>
      rw [List.getElem?_cons_succ] at h
      simp only [List.set_cons_succ, List.filter_cons]
      by_cases ha : a.2.isSome = true
      · simp only [ha, if_true]
        simp only [List.length_cons]
        have := ih i h
        omega
      · simp only [ha, if_false]
        exact ih i h

/-- Tombstoning the unique slot that holds ticket t removes exactly t from
the tickets visible as occupied, leaving every other ticket's visibility
unchanged. -/
theorem live_set_none_iff (l : List (Nat × Option α)) (i : Nat)
    (e : Nat × Option α) (h : l[i]? = some e)
    (hs : (l.map Prod.fst).Pairwise (· < ·)) (u : Nat) :
    (∃ x ∈ l.set i (e.1, none), x.1 = u ∧ x.2.isSome = true) ↔
      (u ≠ e.1 ∧ ∃ x ∈ l, x.1 = u ∧ x.2.isSome = true) := by
  induction l generalizing i with
  | nil => cases h
  | cons a rest ih =>
    rw [List.map_cons, List.pairwise_cons] at hs
    obtain ⟨hhead, htail⟩ := hs
    cases i with
    | zero =>
      rw [List.getElem?_cons_zero] at h
      injection h with h2
      subst h2
      simp only [List.set_cons_zero]
      constructor
      · rintro ⟨x, hx, hxu, hxs⟩
        rcases List.mem_cons.mp hx with hx | hx
        · rw [hx] at hxs
          simp at hxs
        · have hlt : a.1 < x.1 := hhead x.1 (List.mem_map_of_mem Prod.fst hx)
          exact ⟨by omega, x, List.mem_cons_of_mem a hx, hxu, hxs⟩
      · rintro ⟨hne, x, hx, hxu, hxs⟩
        rcases List.mem_cons.mp hx with hx | hx
        · rw [hx] at hxu
          omega
        · exact ⟨x, List.mem_cons_of_mem _ hx, hxu, hxs⟩
    | succ i =>
      rw [List.getElem?_cons_succ] at h
      have hmem : e ∈ rest := List.getElem?_mem h
      have haelt : a.1 < e.1 := hhead e.1 (List.mem_map_of_mem Prod.fst hmem)
      simp only [List.set_cons_succ]
      constructor
      · rintro ⟨x, hx, hxu, hxs⟩
        rcases List.mem_cons.mp hx with hx | hx
        · have hau : a.1 = u := by rw [← hx]; exact hxu
          have hasome : a.2.isSome = true := by rw [← hx]; exact hxs
          exact ⟨by omega, a, List.mem_cons_self a rest, hau, hasome⟩
        · have hrec := (ih i h htail).mp ⟨x, hx, hxu, hxs⟩
          obtain ⟨hne, y, hy, hyu, hys⟩ := hrec
          exact ⟨hne, y, List.mem_cons_of_mem a hy, hyu, hys⟩
      · rintro ⟨hne, x, hx, hxu, hxs⟩
        rcases List.mem_cons.mp hx with hx | hx
        · have hau : a.1 = u := by rw [← hx]; exact hxu
          have hasome : a.2.isSome = true := by rw [← hx]; exact hxs
          exact ⟨a, List.mem_cons_self a _, hau, hasome⟩
        · have hrec := (ih i h htail).mpr ⟨hne, x, hx, hxu, hxs⟩
          obtain ⟨y, hy, hyu, hys⟩ := hrec
          exact ⟨y, List.mem_cons_of_mem a hy, hyu, hys⟩

end SetLemmas

section OpSpecLemmas

variable {α : Type}

/-- Destructor for a successful emplace: the overflow flag was down, the
assigned ticket is the counter value, and the new state is as the code
computes it. -/
theorem emplace_some_spec {tmax : Nat} {m : ticket_map α} {b : Bool} {v : α}
    {id : Nat} {m2 : ticket_map α} (h : emplace tmax m b v = some (id, m2)) :
    m.overflow = false ∧ id = m.nextId ∧
      m2 = ⟨decide (m.nextId = tmax),
            if m.nextId = tmax then m.nextId else m.nextId + 1,
            (if b then m.data.filter (fun e => e.2.isSome) else m.data) ++
              [(m.nextId, some v)],
            m.filledItems + 1⟩ := by
  by_cases ho : m.overflow = true
  · simp [emplace, ho] at h
  · simp only [Bool.not_eq_true] at ho
    simp only [emplace, ho, increment_with_overflow_check, Bool.false_eq_true,
      if_false, Bool.false_or, Option.some.injEq, Prod.mk.injEq] at h
    exact ⟨ho, h.1.symm, h.2.symm⟩

/-- A failing emplace is exactly an emplace on a map whose overflow flag is
already raised. -/
theorem emplace_none_iff {tmax : Nat} {m : ticket_map α} {b : Bool} {v : α} :
    emplace tmax m b v = none ↔ m.overflow = true := by
  by_cases ho : m.overflow = true
  · simp [emplace, ho]
  · simp [emplace, ho]

/-- Erasing an absent (or tombstoned) ticket returns the map unchanged
together with the end iterator. -/
theorem erase_none (m : ticket_map α) (t : Nat)
    (h : lookup m.data t = none) : erase m t = (m, m.data.length) := by
  simp [erase, erase_entry, h]

/-- The state produced by erasing a present ticket: the slot is tombstoned
in place, filledItems drops by one, and when the density check fires the data
is also compacted. -/
theorem erase_some_state (m : ticket_map α) (t i : Nat)
    (hl : lookup m.data t = some i) (e : Nat × Option α)
    (he : m.data[i]? = some e) :
    (erase m t).1 =
      if m.filledItems - 1 < m.data.length / 2 then
        (⟨m.overflow, m.nextId, compact (m.data.set i (e.1, none)),
          m.filledItems - 1⟩ : ticket_map α)
      else
        ⟨m.overflow, m.nextId, m.data.set i (e.1, none),
          m.filledItems - 1⟩ := by
  simp only [erase, hl, erase_entry, he, Option.map_some', Option.getD_some,
    needs_compaction, List.length_set, decide_eq_true_eq]
  by_cases hc : m.filledItems - 1 < m.data.length / 2
  · rw [if_pos hc, if_pos hc]
    cases hj : ((m.data.set i (e.1, none))[next_valid (m.data.set i (e.1, none)) i]?).map Prod.fst with
    | none => rfl
    | some tk => rfl
  · rw [if_neg hc, if_neg hc]

end OpSpecLemmas

section InvariantLemmas

variable {α : Type}

/-- Filtering to the occupied slots is idempotent. -/
theorem filter_isSome_idem (l : List (Nat × Option α)) :
    (l.filter (fun e => e.2.isSome)).filter (fun e => e.2.isSome) =
      l.filter (fun e => e.2.isSome) := by
  rw [List.filter_filter]
  simp

/-- The occupied slots of the filtered data are the occupied slots. -/
theorem live_mem_filter (l : List (Nat × Option α)) (u : Nat) :
    (∃ x ∈ l.filter (fun e => e.2.isSome), x.1 = u ∧ x.2.isSome = true) ↔
      ∃ x ∈ l, x.1 = u ∧ x.2.isSome = true := by
  constructor
  · rintro ⟨x, hx, hxu, hxs⟩
    exact ⟨x, (List.mem_filter.mp hx).1, hxu, hxs⟩
  · rintro ⟨x, hx, hxu, hxs⟩
    exact ⟨x, List.mem_filter.mpr ⟨hx, hxs⟩, hxu, hxs⟩

/-- The invariants hold for a freshly constructed container. -/
theorem inv_init (tmax : Nat) : Inv (α := α) tmax initRS := by
  constructor <;> simp [initRS, ticket_map.empty]

/-- The invariants are preserved by an insert step (with either capacity
oracle, and whether or not the insert succeeds). -/
theorem inv_ins (tmax : Nat) (s : RunState α) (b : Bool) (v : α)
    (hinv : Inv tmax s) : Inv tmax (stepOp tmax s (.ins b v)) := by
  cases hemp : emplace tmax s.m b v with
  | none =>
    simp only [stepOp, hemp]
    exact hinv
  | some p =>
    obtain ⟨id, m2⟩ := p
    obtain ⟨ho, hid, hm2⟩ := emplace_some_spec hemp
    simp only [stepOp, hemp]
    subst hid
    subst hm2
    obtain ⟨sorted, keys_lt, filled_eq, density, live_iff, issued_sorted,
      issued_lt, nextId_le⟩ := hinv
    have hkeys : ∀ e ∈ s.m.data, e.1 < s.m.nextId := by
      intro e he
      rcases keys_lt e he with h | h
      · exact h
      · rw [h.2] at ho
        cases ho
    have hdata1keys :
        ∀ e ∈ (if b then s.m.data.filter (fun e => e.2.isSome) else s.m.data),
          e.1 < s.m.nextId := by
      intro e he
      cases b with
      | true =>
        simp only [if_true] at he
        exact hkeys e (List.mem_filter.mp he).1
      | false =>
        simp only [if_false] at he
        exact hkeys e he
    have hdata1sorted :
        ((if b then s.m.data.filter (fun e => e.2.isSome) else s.m.data).map
          Prod.fst).Pairwise (· < ·) := by
      cases b with
      | true =>
        simp only [if_true]
        exact List.Pairwise.sublist
          (List.Sublist.map Prod.fst (List.filter_sublist s.m.data)) sorted
      | false => simpa using sorted
    have hdata1filter :
        ((if b then s.m.data.filter (fun e => e.2.isSome) else s.m.data).filter
          (fun e => e.2.isSome)) = s.m.data.filter (fun e => e.2.isSome) := by
      cases b with
      | true =>
        simp only [if_true]
        exact filter_isSome_idem s.m.data
      | false => simp
    have hdata1len :
        (if b then s.m.data.filter (fun e => e.2.isSome) else s.m.data).length
          ≤ s.m.data.length := by
      cases b with
      | true => simpa using List.length_filter_le _ s.m.data
      | false => simp
    constructor <;> dsimp only
    · -- sorted
      simp only [List.map_append]
      rw [List.pairwise_append]
      refine ⟨hdata1sorted, by simp, ?_⟩
      intro x hx y hy
      simp only [List.map_cons, List.map_nil, List.mem_singleton] at hy
      subst hy
      obtain ⟨e, he, hex⟩ := List.mem_map.mp hx
      rw [← hex]
      exact hdata1keys e he
    · -- keys_lt
      intro e he
      rcases List.mem_append.mp he with he | he
      · have := hdata1keys e he
        by_cases htm : s.m.nextId = tmax
        · rw [if_pos htm]
          left
          omega
        · rw [if_neg htm]
          left
          omega
      · simp only [List.mem_singleton] at he
        subst he
        by_cases htm : s.m.nextId = tmax
        · rw [if_pos htm]
          right
          exact ⟨rfl, by simp [htm]⟩
        · rw [if_neg htm]
          left
          omega
    · -- filled_eq
      simp only [List.filter_append, hdata1filter]
      simp only [List.filter_cons, List.filter_nil, Option.isSome_some,
        if_true, List.length_append, List.length_cons, List.length_nil]
      omega
    · -- density
      simp only [List.length_append, List.length_cons, List.length_nil]
      cases b with
      | true =>
        simp only [if_true]
        have : (s.m.data.filter (fun e => e.2.isSome)).length =
            s.m.filledItems := filled_eq.symm
        omega
      | false =>
        simp only [Bool.false_eq_true, if_false]
        omega
    · -- live_iff
      intro t
      simp only [List.mem_cons]
      constructor
      · rintro (ht | ht)
        · subst ht
          exact ⟨(s.m.nextId, some v), by simp, rfl, by simp⟩
        · obtain ⟨e, he, het, hes⟩ := (live_iff t).mp ht
          refine ⟨e, ?_, het, hes⟩
          rw [List.mem_append]
          left
          cases b with
          | true =>
            simp only [if_true]
            exact List.mem_filter.mpr ⟨he, hes⟩
          | false => simpa using he
      · rintro ⟨e, he, het, hes⟩
        rcases List.mem_append.mp he with he | he
        · right
          refine (live_iff t).mpr ⟨e, ?_, het, hes⟩
          cases b with
          | true =>
            simp only [if_true] at he
            exact (List.mem_filter.mp he).1
          | false => simpa using he
        · left
          simp only [List.mem_singleton] at he
          subst he
          exact het.symm
    · -- issued_sorted
      rw [List.pairwise_append]
      refine ⟨issued_sorted, by simp, ?_⟩
      intro x hx y hy
      simp only [List.mem_singleton] at hy
      subst hy
      rcases issued_lt x hx with h | h
      · exact h
      · rw [h.2] at ho
        cases ho
    · -- issued_lt
      intro t ht
      rcases List.mem_append.mp ht with ht | ht
      · have : t < s.m.nextId := by
          rcases issued_lt t ht with h | h
          · exact h
          · rw [h.2] at ho
            cases ho
        by_cases htm : s.m.nextId = tmax
        · rw [if_pos htm]
          left
          omega
        · rw [if_neg htm]
          left
          omega
      · simp only [List.mem_singleton] at ht
        subst ht
        by_cases htm : s.m.nextId = tmax
        · rw [if_pos htm]
          right
          exact ⟨rfl, by simp [htm]⟩
        · rw [if_neg htm]
          left
          omega
    · -- nextId_le
      by_cases htm : s.m.nextId = tmax
      · rw [if_pos htm]
        omega
      · rw [if_neg htm]
        omega

/-- The invariants are preserved by an erase step, whether or not the ticket
is present and whether or not compaction fires. -/
theorem inv_del (tmax : Nat) (s : RunState α) (t : Nat)
    (hinv : Inv tmax s) : Inv tmax (stepOp tmax s (.del t)) := by
  obtain ⟨sorted, keys_lt, filled_eq, density, live_iff, issued_sorted,
    issued_lt, nextId_le⟩ := hinv
  cases hl : lookup s.m.data t with
  | none =>
    have herase := erase_none s.m t hl
    have hnot : ¬ ∃ e ∈ s.m.data, e.1 = t ∧ e.2.isSome = true := by
      intro hex
      have := (lookup_isSome_iff s.m.data t sorted).mpr hex
      rw [hl] at this
      cases this
    simp only [stepOp, herase]
    constructor <;> dsimp only
    · exact sorted
    · exact keys_lt
    · exact filled_eq
    · exact density
    · intro u
      simp only [List.mem_filter, decide_eq_true_eq]
      constructor
      · rintro ⟨hu, hne⟩
        exact (live_iff u).mp hu
      · intro hex
        refine ⟨(live_iff u).mpr hex, ?_⟩
        rintro rfl
        exact hnot hex
    · exact issued_sorted
    · exact issued_lt
    · exact nextId_le
  | some i =>
    obtain ⟨e, he, het, hes⟩ := lookup_some_spec s.m.data t i hl
    have hstate := erase_some_state s.m t i hl e he
    have hmapfst : (s.m.data.set i (e.1, none)).map Prod.fst =
        s.m.data.map Prod.fst := map_fst_set_same s.m.data i e none he
    have hsorted1 : ((s.m.data.set i (e.1, none)).map Prod.fst).Pairwise
        (· < ·) := by
      rw [hmapfst]
      exact sorted
    have hlen1 : (s.m.data.set i (e.1, none)).length = s.m.data.length :=
      List.length_set s.m.data i (e.1, none)
    have hfilter1 : ((s.m.data.set i (e.1, none)).filter
          (fun e => e.2.isSome)).length + 1 =
        (s.m.data.filter (fun e => e.2.isSome)).length :=
      filter_length_set_none s.m.data i e he hes
    have hfilled1_eq : s.m.filledItems - 1 =
        ((s.m.data.set i (e.1, none)).filter (fun e => e.2.isSome)).length := by
      omega
    have hkeys1 : ∀ x ∈ s.m.data.set i (e.1, none),
        x.1 < s.m.nextId ∨ (x.1 = s.m.nextId ∧ s.m.overflow = true) := by
      intro x hx
      rcases List.mem_or_eq_of_mem_set hx with hx | hx
      · exact keys_lt x hx
      · rw [hx]
        exact keys_lt e (List.getElem?_mem he)
    have hlive1 : ∀ u, (∃ x ∈ s.m.data.set i (e.1, none),
          x.1 = u ∧ x.2.isSome = true) ↔
        (u ≠ t ∧ ∃ x ∈ s.m.data, x.1 = u ∧ x.2.isSome = true) := by
      intro u
      rw [live_set_none_iff s.m.data i e he sorted u, het]
    have hlivemem : ∀ u, u ∈ s.live.filter (fun u => u ≠ t) ↔
        (u ≠ t ∧ ∃ x ∈ s.m.data, x.1 = u ∧ x.2.isSome = true) := by
      intro u
      simp only [List.mem_filter, decide_eq_true_eq]
      rw [live_iff u]
      tauto
    simp only [stepOp]
    rw [hstate]
    by_cases hc : s.m.filledItems - 1 < s.m.data.length / 2
    · rw [if_pos hc]
      constructor <;> dsimp only
      · exact List.Pairwise.sublist
          (List.Sublist.map Prod.fst (List.filter_sublist _)) hsorted1
      · intro x hx
        exact hkeys1 x (List.mem_filter.mp hx).1
      · simp only [compact]
        rw [filter_isSome_idem]
        exact hfilled1_eq
      · rw [show (compact (s.m.data.set i (e.1, none))).length =
            ((s.m.data.set i (e.1, none)).filter (fun e => e.2.isSome)).length
          from rfl]
        omega
      · intro u
        rw [hlivemem u]
        rw [show compact (s.m.data.set i (e.1, none)) =
            (s.m.data.set i (e.1, none)).filter (fun e => e.2.isSome) from rfl]
        rw [live_mem_filter]
        exact (hlive1 u).symm
      · exact issued_sorted
      · exact issued_lt
      · exact nextId_le
    · rw [if_neg hc]
      constructor <;> dsimp only
      · exact hsorted1
      · exact hkeys1
      · exact hfilled1_eq
      · rw [hlen1]
        omega
      · intro u
        rw [hlivemem u]
        exact (hlive1 u).symm
      · exact issued_sorted
      · exact issued_lt
      · exact nextId_le

/-- The invariants are preserved by a clear step. -/
theorem inv_clr (tmax : Nat) (s : RunState α) (hinv : Inv tmax s) :
    Inv tmax (stepOp tmax s .clr) := by
  obtain ⟨sorted, keys_lt, filled_eq, density, live_iff, issued_sorted,
    issued_lt, nextId_le⟩ := hinv
  simp only [stepOp, clear]
  constructor <;> dsimp only
  · simp
  · simp
  · simp
  · simp
  · simp
  · exact issued_sorted
  · exact issued_lt
  · exact nextId_le

/-- The invariants are preserved by a reserve step (both branches of reserve
keep exactly the occupied slots). -/
theorem inv_rsv (tmax : Nat) (s : RunState α) (n : Nat) (hinv : Inv tmax s) :
    Inv tmax (stepOp tmax s (.rsv n)) := by
  obtain ⟨sorted, keys_lt, filled_eq, density, live_iff, issued_sorted,
    issued_lt, nextId_le⟩ := hinv
  have hdata : (reserve s.m n).data = s.m.data.filter (fun e => e.2.isSome) := by
    by_cases hn : s.m.filledItems < n
    · simp [reserve, hn]
    · simp [reserve, hn, compact]
  have hrest : (reserve s.m n).overflow = s.m.overflow ∧
      (reserve s.m n).nextId = s.m.nextId ∧
      (reserve s.m n).filledItems = s.m.filledItems := by
    by_cases hn : s.m.filledItems < n
    · simp [reserve, hn]
    · simp [reserve, hn]
  obtain ⟨hov, hni, hfi⟩ := hrest
  simp only [stepOp]
  constructor <;> dsimp only
  · rw [hdata]
    exact List.Pairwise.sublist
      (List.Sublist.map Prod.fst (List.filter_sublist _)) sorted
  · intro x hx
    rw [hdata] at hx
    rw [hni, hov]
    exact keys_lt x (List.mem_filter.mp hx).1
  · rw [hdata, hfi, filter_isSome_idem]
    exact filled_eq
  · rw [hdata, hfi]
    omega
  · intro u
    rw [hdata, live_mem_filter]
    exact live_iff u
  · exact issued_sorted
  · intro u hu
    rw [hni, hov]
    exact issued_lt u hu
  · rw [hni]
    exact nextId_le

/-- The invariants are preserved by every single step. -/
theorem inv_step (tmax : Nat) (s : RunState α) (op : Op α)
    (hinv : Inv tmax s) : Inv tmax (stepOp tmax s op) := by
  cases op with
  | ins b v => exact inv_ins tmax s b v hinv
  | del t => exact inv_del tmax s t hinv
  | clr => exact inv_clr tmax s hinv
  | rsv n => exact inv_rsv tmax s n hinv

/-- The invariants are preserved along any trace. -/
theorem inv_runFrom (tmax : Nat) (s : RunState α) (ops : List (Op α))
    (hinv : Inv tmax s) : Inv tmax (runFrom tmax s ops) := by
  induction ops generalizing s with
  | nil => exact hinv
  | cons op ops ih =>
    exact ih (stepOp tmax s op) (inv_step tmax s op hinv)

/-- Every reachable run state satisfies the invariants. -/
theorem inv_run (tmax : Nat) (ops : List (Op α)) :
    Inv tmax (run tmax ops) :=
  inv_runFrom tmax initRS ops (inv_init tmax)

end InvariantLemmas

section MonotonicityLemmas

variable {α : Type}

/-- Erase never touches the allocator: nextId and overflow are unchanged. -/
theorem erase_nextId_overflow (m : ticket_map α) (t : Nat) :
    (erase m t).1.nextId = m.nextId ∧ (erase m t).1.overflow = m.overflow := by
  cases hl : lookup m.data t with
  | none =>
    rw [erase_none m t hl]
    exact ⟨rfl, rfl⟩
  | some i =>
    obtain ⟨e, he, het, hes⟩ := lookup_some_spec m.data t i hl
    rw [erase_some_state m t i hl e he]
    by_cases hc : m.filledItems - 1 < m.data.length / 2
    · rw [if_pos hc]
      exact ⟨rfl, rfl⟩
    · rw [if_neg hc]
      exact ⟨rfl, rfl⟩

/-- Reserve never touches the allocator: nextId and overflow are
unchanged. -/
theorem reserve_nextId_overflow (m : ticket_map α) (n : Nat) :
    (reserve m n).nextId = m.nextId ∧ (reserve m n).overflow = m.overflow := by
  by_cases hn : m.filledItems < n
  · simp [reserve, hn]
  · simp [reserve, hn]

/-- No operation ever decreases the allocator counter. -/
theorem stepOp_nextId_ge (tmax : Nat) (s : RunState α) (op : Op α) :
    s.m.nextId ≤ (stepOp tmax s op).m.nextId := by
  cases op with
  | ins b v =>
    cases hemp : emplace tmax s.m b v with
    | none => simp [stepOp, hemp]
    | some p =>
      obtain ⟨id, m2⟩ := p
      obtain ⟨ho, hid, hm2⟩ := emplace_some_spec hemp
      simp only [stepOp, hemp]
      rw [hm2]
      dsimp only
      by_cases htm : s.m.nextId = tmax
      · rw [if_pos htm]
      · rw [if_neg htm]
        omega
  | del t =>
    simp only [stepOp]
    rw [(erase_nextId_overflow s.m t).1]
  | clr => simp [stepOp, clear]
  | rsv n =>
    simp only [stepOp]
    rw [(reserve_nextId_overflow s.m n).1]

/-- Once raised, the overflow flag stays raised across every operation. -/
theorem stepOp_overflow_mono (tmax : Nat) (s : RunState α) (op : Op α)
    (h : s.m.overflow = true) : (stepOp tmax s op).m.overflow = true := by
  cases op with
  | ins b v =>
    have : emplace tmax s.m b v = none := emplace_none_iff.mpr h
    simp [stepOp, this, h]
  | del t =>
    simp only [stepOp]
    rw [(erase_nextId_overflow s.m t).2]
    exact h
  | clr => simpa [stepOp, clear] using h
  | rsv n =>
    simp only [stepOp]
    rw [(reserve_nextId_overflow s.m n).2]
    exact h

/-- A step can add at most the current counter value to the issued list. -/
theorem stepOp_issued_sub (tmax : Nat) (s : RunState α) (op : Op α) :
    ∀ x ∈ (stepOp tmax s op).issued, x ∈ s.issued ∨ x = s.m.nextId := by
  cases op with
  | ins b v =>
    cases hemp : emplace tmax s.m b v with
    | none =>
      simp only [stepOp, hemp]
      intro x hx
      exact Or.inl hx
    | some p =>
      obtain ⟨id, m2⟩ := p
      obtain ⟨ho, hid, hm2⟩ := emplace_some_spec hemp
      simp only [stepOp, hemp]
      intro x hx
      rcases List.mem_append.mp hx with hx | hx
      · exact Or.inl hx
      · simp only [List.mem_singleton] at hx
        rw [hx, hid]
        exact Or.inr rfl
  | del t =>
    intro x hx
    exact Or.inl hx
  | clr =>
    intro x hx
    exact Or.inl hx
  | rsv n =>
    intro x hx
    exact Or.inl hx

/-- A step can add at most the current counter value as a new slot key. -/
theorem stepOp_keys_sub (tmax : Nat) (s : RunState α) (op : Op α) :
    ∀ x ∈ (stepOp tmax s op).m.data,
      (∃ y ∈ s.m.data, y.1 = x.1) ∨ x.1 = s.m.nextId := by
  cases op with
  | ins b v =>
    cases hemp : emplace tmax s.m b v with
    | none =>
      simp only [stepOp, hemp]
      intro x hx
      exact Or.inl ⟨x, hx, rfl⟩
    | some p =>
      obtain ⟨id, m2⟩ := p
      obtain ⟨ho, hid, hm2⟩ := emplace_some_spec hemp
      simp only [stepOp, hemp]
      rw [hm2]
      intro x hx
      dsimp only at hx
      rcases List.mem_append.mp hx with hx | hx
      · cases b with
        | true =>
          simp only [if_true] at hx
          exact Or.inl ⟨x, (List.mem_filter.mp hx).1, rfl⟩
        | false =>
          simp only [Bool.false_eq_true, if_false] at hx
          exact Or.inl ⟨x, hx, rfl⟩
      · simp only [List.mem_singleton] at hx
        rw [hx]
        exact Or.inr rfl
  | del t =>
    simp only [stepOp]
    cases hl : lookup s.m.data t with
    | none =>
      rw [erase_none s.m t hl]
      intro x hx
      exact Or.inl ⟨x, hx, rfl⟩
    | some i =>
      obtain ⟨e, he, het, hes⟩ := lookup_some_spec s.m.data t i hl
      rw [erase_some_state s.m t i hl e he]
      by_cases hc : s.m.filledItems - 1 < s.m.data.length / 2
      · rw [if_pos hc]
        intro x hx
        dsimp only at hx
        have hx2 : x ∈ s.m.data.set i (e.1, none) :=
          (List.mem_filter.mp hx).1
        rcases List.mem_or_eq_of_mem_set hx2 with hx3 | hx3
        · exact Or.inl ⟨x, hx3, rfl⟩
        · rw [hx3]
          exact Or.inl ⟨e, List.getElem?_mem he, rfl⟩
      · rw [if_neg hc]
        intro x hx
        dsimp only at hx
        rcases List.mem_or_eq_of_mem_set hx with hx3 | hx3
        · exact Or.inl ⟨x, hx3, rfl⟩
        · rw [hx3]
          exact Or.inl ⟨e, List.getElem?_mem he, rfl⟩
  | clr =>
    simp [stepOp, clear]
  | rsv n =>
    simp only [stepOp]
    intro x hx
    have hdata : (reserve s.m n).data =
        s.m.data.filter (fun e => e.2.isSome) := by
      by_cases hn : s.m.filledItems < n
      · simp [reserve, hn]
      · simp [reserve, hn, compact]
    rw [hdata] at hx
    exact Or.inl ⟨x, (List.mem_filter.mp hx).1, rfl⟩

/-- The allocator counter never decreases along a trace. -/
theorem runFrom_nextId_ge (tmax : Nat) (s : RunState α) (ops : List (Op α)) :
    s.m.nextId ≤ (runFrom tmax s ops).m.nextId := by
  induction ops generalizing s with
  | nil => exact Nat.le_refl _
  | cons op ops ih =>
    calc s.m.nextId ≤ (stepOp tmax s op).m.nextId :=
          stepOp_nextId_ge tmax s op
      _ ≤ (runFrom tmax (stepOp tmax s op) ops).m.nextId :=
          ih (stepOp tmax s op)

/-- The overflow flag, once raised, stays raised along every trace. -/
theorem runFrom_overflow_mono (tmax : Nat) (s : RunState α)
    (ops : List (Op α)) (h : s.m.overflow = true) :
    (runFrom tmax s ops).m.overflow = true := by
  induction ops generalizing s with
  | nil => exact h
  | cons op ops ih =>
    exact ih (stepOp tmax s op) (stepOp_overflow_mono tmax s op h)

/-- Every ticket in the issued list after a trace was either already issued
at the start or is at least the starting counter value. -/
theorem runFrom_issued_ge (tmax : Nat) (s : RunState α) (ops : List (Op α)) :
    ∀ x ∈ (runFrom tmax s ops).issued, x ∈ s.issued ∨ s.m.nextId ≤ x := by
  induction ops generalizing s with
  | nil =>
    intro x hx
    exact Or.inl hx
  | cons op ops ih =>
    intro x hx
    rcases ih (stepOp tmax s op) x hx with hx2 | hx2
    · rcases stepOp_issued_sub tmax s op x hx2 with hx3 | hx3
      · exact Or.inl hx3
      · right
        omega
    · right
      have := stepOp_nextId_ge tmax s op
      omega

/-- Every slot key after a trace was either already a key at the start or is
at least the starting counter value. -/
theorem runFrom_keys_ge (tmax : Nat) (s : RunState α) (ops : List (Op α)) :
    ∀ x ∈ (runFrom tmax s ops).m.data,
      (∃ y ∈ s.m.data, y.1 = x.1) ∨ s.m.nextId ≤ x.1 := by
  induction ops generalizing s with
  | nil =>
    intro x hx
    exact Or.inl ⟨x, hx, rfl⟩
  | cons op ops ih =>
    intro x hx
    rcases ih (stepOp tmax s op) x hx with ⟨y, hy, hyx⟩ | hx2
    · rcases stepOp_keys_sub tmax s op y hy with ⟨z, hz, hzy⟩ | hy2
      · exact Or.inl ⟨z, hz, by omega⟩
      · right
        omega
    · right
      have := stepOp_nextId_ge tmax s op
      omega

end MonotonicityLemmas

section OverflowTraceLemmas

variable {α : Type}

/-- With the overflow flag raised, no step issues a ticket. -/
theorem stepOp_issued_of_overflow (tmax : Nat) (s : RunState α) (op : Op α)
    (h : s.m.overflow = true) : (stepOp tmax s op).issued = s.issued := by
  cases op with
  | ins b v =>
    have : emplace tmax s.m b v = none := emplace_none_iff.mpr h
    simp [stepOp, this]
  | del t => rfl
  | clr => rfl
  | rsv n => rfl

/-- With the overflow flag raised, a whole trace issues no tickets. -/
theorem runFrom_issued_of_overflow (tmax : Nat) (s : RunState α)
    (ops : List (Op α)) (h : s.m.overflow = true) :
    (runFrom tmax s ops).issued = s.issued := by
  induction ops generalizing s with
  | nil => rfl
  | cons op ops ih =>
    rw [show runFrom tmax s (op :: ops) = runFrom tmax (stepOp tmax s op) ops
        from rfl]
    rw [ih (stepOp tmax s op) (stepOp_overflow_mono tmax s op h)]
    exact stepOp_issued_of_overflow tmax s op h

/-- With the overflow flag raised and no slots, a step leaves the data
empty. -/
theorem stepOp_data_nil_of_overflow (tmax : Nat) (s : RunState α) (op : Op α)
    (h : s.m.overflow = true) (hd : s.m.data = []) :
    (stepOp tmax s op).m.data = [] := by
  cases op with
  | ins b v =>
    have : emplace tmax s.m b v = none := emplace_none_iff.mpr h
    simp [stepOp, this, hd]
  | del t =>
    simp only [stepOp]
    have hl : lookup s.m.data t = none := by
      rw [hd]
      rfl
    rw [erase_none s.m t hl]
    exact hd
  | clr => rfl
  | rsv n =>
    simp only [stepOp]
    by_cases hn : s.m.filledItems < n
    · simp [reserve, hn, hd]
    · simp [reserve, hn, compact, hd]

/-- With the overflow flag raised and no slots, a whole trace leaves the
data empty. -/
theorem runFrom_data_nil_of_overflow (tmax : Nat) (s : RunState α)
    (ops : List (Op α)) (h : s.m.overflow = true) (hd : s.m.data = []) :
    (runFrom tmax s ops).m.data = [] := by
  induction ops generalizing s with
  | nil => exact hd
  | cons op ops ih =>
    exact ih (stepOp tmax s op) (stepOp_overflow_mono tmax s op h)
      (stepOp_data_nil_of_overflow tmax s op h hd)

/-- On a map with no tombstones, the capacity oracle is irrelevant: both
branches of emplace append the same slot to the same data. -/
theorem emplace_oracle_irrelevant (tmax : Nat) (m : ticket_map α)
    (hall : ∀ e ∈ m.data, e.2.isSome = true) (b : Bool) (v : α) :
    emplace tmax m b v = emplace tmax m false v := by
  have hfe : m.data.filter (fun e => e.2.isSome) = m.data :=
    List.filter_eq_self.mpr hall
  cases b with
  | true => simp [emplace, hfe]
  | false => rfl

/-- A successful insert keeps the no-tombstone property. -/
theorem stepOp_all_live (tmax : Nat) (s : RunState α) (b : Bool) (v : α)
    (hall : ∀ e ∈ s.m.data, e.2.isSome = true) :
    ∀ e ∈ (stepOp tmax s (.ins b v)).m.data, e.2.isSome = true := by
  cases hemp : emplace tmax s.m b v with
  | none =>
    simp only [stepOp, hemp]
    exact hall
  | some p =>
    obtain ⟨id, m2⟩ := p
    obtain ⟨ho, hid, hm2⟩ := emplace_some_spec hemp
    simp only [stepOp, hemp]
    rw [hm2]
    intro e he
    rcases List.mem_append.mp he with he | he
    · cases b with
      | true =>
        simp only [if_true] at he
        exact (List.mem_filter.mp he).2
      | false =>
        simp only [Bool.false_eq_true, if_false] at he
        exact hall e he
    · simp only [List.mem_singleton] at he
      rw [he]
      rfl

/-- On a pure-insert trace from a tombstone-free state, the capacity oracle
bits do not influence the run at all. -/
theorem runFrom_insOps_oracle_irrelevant (tmax : Nat) (vs : List α)
    (bs : List Bool) (s : RunState α)
    (hall : ∀ e ∈ s.m.data, e.2.isSome = true) :
    runFrom tmax s (insOps vs bs) = runFrom tmax s (insOps vs []) := by
  induction vs generalizing bs s with
  | nil => rfl
  | cons v vs ih =>
    simp only [insOps]
    rw [show runFrom tmax s (.ins (bs.headD false) v :: insOps vs bs.tail) =
        runFrom tmax (stepOp tmax s (.ins (bs.headD false) v))
          (insOps vs bs.tail) from rfl]
    rw [show runFrom tmax s (.ins ((List.nil (α := Bool)).headD false) v ::
          insOps vs (List.nil (α := Bool)).tail) =
        runFrom tmax (stepOp tmax s (.ins false v)) (insOps vs []) from rfl]
    have hstep : stepOp tmax s (.ins (bs.headD false) v) =
        stepOp tmax s (.ins false v) := by
      simp only [stepOp]
      rw [emplace_oracle_irrelevant tmax s.m hall (bs.headD false) v]
    rw [hstep]
    exact ih bs.tail (stepOp tmax s (.ins false v))
      (stepOp_all_live tmax s false v hall)

end OverflowTraceLemmas

section ClaimTheorems

variable {α : Type}

/-- C1: for every sequence of insert and erase operations and every ticket t,
find(t) returns a cursor other than the end sentinel iff t was assigned by
some insert and no erase of t has happened since (the ghost live list records
exactly that), and count(t) is 1 in exactly that case and 0 otherwise —
including when the slot for t is still physically present as a tombstone. -/
theorem C1_lookup_iff_live (tmax : Nat) (ops : List (Op α)) (t : Nat)
    (_hops : ∀ op ∈ ops, op.isInsOrDel = true) :
    (find (run tmax ops).m t ≠ (run tmax ops).m.data.length ↔
      t ∈ (run tmax ops).live) ∧
    count (run tmax ops).m t = if t ∈ (run tmax ops).live then 1 else 0 := by
  have hinv := inv_run tmax ops
  have hsorted := hinv.sorted
  have hlive := hinv.live_iff t
  cases hl : lookup (run tmax ops).m.data t with
  | none =>
    have hnot : ¬ ∃ e ∈ (run tmax ops).m.data,
        e.1 = t ∧ e.2.isSome = true := by
      intro hex
      have h2 := (lookup_isSome_iff _ t hsorted).mpr hex
      rw [hl] at h2
      cases h2
    have htl : t ∉ (run tmax ops).live := fun ht => hnot (hlive.mp ht)
    constructor
    · constructor
      · intro hne
        exact absurd (by simp [find, hl]) hne
      · intro ht
        exact absurd ht htl
    · simp [count, hl, htl]
  | some i =>
    obtain ⟨e, he, het, hes⟩ := lookup_some_spec _ t i hl
    obtain ⟨hi, _⟩ := List.getElem?_eq_some.mp he
    have htl : t ∈ (run tmax ops).live :=
      hlive.mpr ⟨e, List.getElem?_mem he, het, hes⟩
    constructor
    · constructor
      · intro _
        exact htl
      · intro _
        simp only [find, hl, Option.getD_some]
        omega
    · simp [count, hl, htl]

/-- Witness for C1 at a concrete trace: two inserts and one erase, with the
erased ticket 0 still physically present as a tombstone. -/
theorem C1_lookup_iff_live_witness :
    (∀ op ∈ ([.ins false 42, .ins false 7, .del 0] : List (Op Nat)),
      op.isInsOrDel = true) ∧
    ((find (run 255 ([.ins false 42, .ins false 7, .del 0] : List (Op Nat))).m 0 ≠
        (run 255 ([.ins false 42, .ins false 7, .del 0] : List (Op Nat))).m.data.length ↔
      0 ∈ (run 255 ([.ins false 42, .ins false 7, .del 0] : List (Op Nat))).live) ∧
    count (run 255 ([.ins false 42, .ins false 7, .del 0] : List (Op Nat))).m 0 =
      if 0 ∈ (run 255 ([.ins false 42, .ins false 7, .del 0] : List (Op Nat))).live
      then 1 else 0) :=
  ⟨by decide, C1_lookup_iff_live 255 [.ins false 42, .ins false 7, .del 0] 0
    (by decide)⟩

/-- C2 counterexample: after five inserts and two erases the third erase
removes the present ticket 2, and the resulting state has 2 live slots among
5 physical slots, so the live/total ratio 2/5 is strictly below 1/2 and no
compaction fired — refuting the claimed ratio bound. -/
theorem C2_density_counterexample :
    count (run 255 ([.ins false 1, .ins false 2, .ins false 3, .ins false 4,
      .ins false 5, .del 0, .del 1] : List (Op Nat))).m 2 = 1 ∧
    2 * (run 255 ([.ins false 1, .ins false 2, .ins false 3, .ins false 4,
      .ins false 5, .del 0, .del 1, .del 2] : List (Op Nat))).m.filledItems <
      (run 255 ([.ins false 1, .ins false 2, .ins false 3, .ins false 4,
        .ins false 5, .del 0, .del 1, .del 2] : List (Op Nat))).m.data.length := by
  decide

/-- C2 amended: after any erase the live count is at least the floor of half
the physical slot count (total ≤ 2·live + 1); the exact ratio bound 1/2 fails
because needs_compaction compares against the integer division
data.size() / 2. -/
theorem C2_density_after_erase (tmax : Nat) (ops : List (Op α)) (t : Nat) :
    (run tmax (ops ++ [Op.del t])).m.data.length ≤
      2 * (run tmax (ops ++ [Op.del t])).m.filledItems + 1 :=
  (inv_run tmax (ops ++ [Op.del t])).density

/-- C3: along every trace of operations (inserts with any capacity oracle,
erases, clears, reserves), the tickets returned by the successive successful
inserts form a strictly increasing sequence — so a ticket, once issued, is
never issued again by the container, even after erases and compactions. -/
theorem C3_tickets_strictly_increasing (tmax : Nat) (ops : List (Op α)) :
    (run tmax ops).issued.Pairwise (· < ·) :=
  (inv_run tmax ops).issued_sorted

/-- C5 shows the code bug in swap: the overflow flag is not exchanged.  Map a
(over the one-value ticket space tmax = 0) has issued ticket 0 and raised its
overflow flag; map b is fresh.  After a.swap(b), the a-side still refuses
inserts (although pre-swap b accepted them), while the b-side accepts an
insert and hands out ticket 0 again — a ticket the a-side had already
issued.  The claimed behaviour exchange does not happen. -/
theorem C5_swap_overflow_bug :
    (swap (run 0 ([.ins false 7] : List (Op Nat))).m ticket_map.empty).1.overflow
        = true ∧
    (swap (run 0 ([.ins false 7] : List (Op Nat))).m ticket_map.empty).2.overflow
        = false ∧
    emplace 0 (swap (run 0 ([.ins false 7] : List (Op Nat))).m
        ticket_map.empty).1 false 9 = none ∧
    (emplace 0 (ticket_map.empty : ticket_map Nat) false 9).map Prod.fst =
        some 0 ∧
    (emplace 0 (swap (run 0 ([.ins false 7] : List (Op Nat))).m
        ticket_map.empty).2 false 9).map Prod.fst = some 0 ∧
    0 ∈ (run 0 ([.ins false 7] : List (Op Nat))).issued := by
  decide

set_option maxRecDepth 100000 in
/-- C4: with an 8-bit unsigned ticket type (tmax = 255), 256 inserts from
empty all succeed and are assigned exactly the tickets 0..255 (whatever the
capacity oracle bits), the 257th insert throws (emplace = none, i.e. the
throw happens before any mutation, so the container and its 256 entries are
untouched), and every insert attempted later — even after arbitrary further
operations — also throws. -/
theorem C4_exhaustion_at_256 (bs : List Bool) :
    (run 255 (insOps (List.range 256) bs)).issued = List.range 256 ∧
    (run 255 (insOps (List.range 256) bs)).m.filledItems = 256 ∧
    (run 255 (insOps (List.range 256) bs)).m.overflow = true ∧
    (∀ b v, emplace 255 (run 255 (insOps (List.range 256) bs)).m b v = none) ∧
    (∀ ops2 b v, emplace 255
      (runFrom 255 (run 255 (insOps (List.range 256) bs)) ops2).m b v
        = none) := by
  have hirr : run 255 (insOps (List.range 256) bs) =
      run 255 (insOps (List.range 256) []) := by
    simp only [run]
    exact runFrom_insOps_oracle_irrelevant 255 (List.range 256) bs initRS
      (by simp [initRS, ticket_map.empty])
  rw [hirr]
  have hconc : (run 255 (insOps (List.range 256) [])).issued =
        List.range 256 ∧
      (run 255 (insOps (List.range 256) ([] : List Bool))).m.filledItems = 256 ∧
      (run 255 (insOps (List.range 256) ([] : List Bool))).m.overflow = true := by
    decide
  refine ⟨hconc.1, hconc.2.1, hconc.2.2, ?_, ?_⟩
  · intro b v
    exact emplace_none_iff.mpr hconc.2.2
  · intro ops2 b v
    exact emplace_none_iff.mpr
      (runFrom_overflow_mono 255 _ ops2 hconc.2.2)

/-- C6: in every reachable container state, iterating from begin() (collect
over next_valid steps) visits exactly the occupied slots of the data, these
are in strictly ascending ticket order, and their tickets are exactly the
live tickets (assigned and not erased since). -/
theorem C6_iteration_in_ticket_order (tmax : Nat) (ops : List (Op α)) :
    collect (run tmax ops).m.data (next_valid (run tmax ops).m.data 0) =
      (run tmax ops).m.data.filter (fun e => e.2.isSome) ∧
    (((run tmax ops).m.data.filter (fun e => e.2.isSome)).map
      Prod.fst).Pairwise (· < ·) ∧
    (∀ t, t ∈ ((run tmax ops).m.data.filter (fun e => e.2.isSome)).map
        Prod.fst ↔ t ∈ (run tmax ops).live) := by
  have hinv := inv_run tmax ops
  refine ⟨collect_begin _, ?_, ?_⟩
  · exact List.Pairwise.sublist
      (List.Sublist.map Prod.fst (List.filter_sublist _)) hinv.sorted
  · intro t
    rw [hinv.live_iff t]
    constructor
    · intro ht
      obtain ⟨e, he, het⟩ := List.mem_map.mp ht
      have := List.mem_filter.mp he
      exact ⟨e, this.1, het, this.2⟩
    · rintro ⟨e, he, het, hes⟩
      exact List.mem_map.mpr ⟨e, List.mem_filter.mpr ⟨he, hes⟩, het⟩

/-- C7: operator[] (index) yields the KeyNotFound failure exactly when no
occupied slot holds the ticket (absent or tombstoned), and in exactly that
situation count returns 0, find returns the end sentinel, and erase returns
the end sentinel leaving the map untouched; when the ticket is live,
operator[] returns the stored value. -/
theorem C7_subscript_raises_probes_return (tmax : Nat) (ops : List (Op α))
    (t : Nat) :
    (index (run tmax ops).m t = none ↔
      ¬ ∃ e ∈ (run tmax ops).m.data, e.1 = t ∧ e.2.isSome = true) ∧
    (index (run tmax ops).m t = none →
      count (run tmax ops).m t = 0 ∧
      find (run tmax ops).m t = (run tmax ops).m.data.length ∧
      erase (run tmax ops).m t =
        ((run tmax ops).m, (run tmax ops).m.data.length)) ∧
    (∀ v, index (run tmax ops).m t = some v →
      (t, some v) ∈ (run tmax ops).m.data) := by
  have hinv := inv_run tmax ops
  have hidx : index (run tmax ops).m t = none ↔
      lookup (run tmax ops).m.data t = none := by
    cases hl : lookup (run tmax ops).m.data t with
    | none => simp [index, hl]
    | some i =>
      obtain ⟨e, he, het, hes⟩ := lookup_some_spec _ t i hl
      obtain ⟨v, hv⟩ := Option.isSome_iff_exists.mp hes
      simp [index, hl, he, hv]
  refine ⟨?_, ?_, ?_⟩
  · rw [hidx]
    constructor
    · intro hl hex
      have h2 := (lookup_isSome_iff _ t hinv.sorted).mpr hex
      rw [hl] at h2
      cases h2
    · intro hnot
      cases hl : lookup (run tmax ops).m.data t with
      | none => rfl
      | some i =>
        obtain ⟨e, he, het, hes⟩ := lookup_some_spec _ t i hl
        exact absurd ⟨e, List.getElem?_mem he, het, hes⟩ hnot
  · intro hn
    have hl := hidx.mp hn
    exact ⟨by simp [count, hl], by simp [find, hl], erase_none _ t hl⟩
  · intro v hv
    cases hl : lookup (run tmax ops).m.data t with
    | none => simp [index, hl] at hv
    | some i =>
      obtain ⟨e, he, het, hes⟩ := lookup_some_spec _ t i hl
      have hev : e.2 = some v := by
        simp only [index, hl, he] at hv
        exact hv
      have het2 : e = (t, some v) := by
        cases e with
        | mk k ov =>
          simp only at het hev
          rw [het, hev]
      rw [← het2]
      exact List.getElem?_mem he

/-- C8 counterexample: in the reachable state with slots
[(0, tombstone), (1, occupied)] the call reserve(2) takes the growth branch
(reserve_grows = true, the code condition count > size() compares against the
live count 1), although the requested count 2 does not exceed the total
live-plus-tombstoned slot count 2 — where the claim mandates a plain
compaction with no storage growth. -/
theorem C8_reserve_branch_counterexample :
    reserve_grows
      (run 255 ([.ins false 10, .ins false 20, .del 0] : List (Op Nat))).m 2
        = true ∧
    ¬ ((run 255 ([.ins false 10, .ins false 20, .del 0] :
        List (Op Nat))).m.data.length < 2) := by
  decide

/-- C8 amended: reserve(n) rebuilds into fresh storage exactly when n
exceeds size(), the live count (not the live-plus-tombstoned slot count);
in both branches every tombstoned slot is dropped, and the live entries are
preserved, still in strictly ascending ticket order, with their visibility
unchanged. -/
theorem C8_reserve_drops_tombstones (tmax : Nat) (ops : List (Op α))
    (n : Nat) :
    (reserve (run tmax ops).m n).data =
      (run tmax ops).m.data.filter (fun e => e.2.isSome) ∧
    (∀ e ∈ (reserve (run tmax ops).m n).data, e.2.isSome = true) ∧
    (((reserve (run tmax ops).m n).data).map Prod.fst).Pairwise (· < ·) ∧
    (∀ t, (∃ e ∈ (reserve (run tmax ops).m n).data,
        e.1 = t ∧ e.2.isSome = true) ↔
      ∃ e ∈ (run tmax ops).m.data, e.1 = t ∧ e.2.isSome = true) ∧
    reserve_grows (run tmax ops).m n =
      decide ((run tmax ops).m.filledItems < n) := by
  have hinv := inv_run tmax ops
  have hdata : (reserve (run tmax ops).m n).data =
      (run tmax ops).m.data.filter (fun e => e.2.isSome) := by
    by_cases hn : (run tmax ops).m.filledItems < n
    · simp [reserve, hn]
    · simp [reserve, hn, compact]
  refine ⟨hdata, ?_, ?_, ?_, rfl⟩
  · intro e he
    rw [hdata] at he
    exact (List.mem_filter.mp he).2
  · rw [hdata]
    exact List.Pairwise.sublist
      (List.Sublist.map Prod.fst (List.filter_sublist _)) hinv.sorted
  · intro t
    rw [hdata]
    exact live_mem_filter _ t

/-- C9 shows the code bug in the range insert: in the reachable state with
slots [(0, tombstone), (1, occupied)] and full backing storage, inserting the
one-element range compacts mid-loop, so the cursor computed from the
pre-captured index 2 equals the final data length — the end sentinel — even
though one element (ticket 2, stored at index 1) was inserted.  This
contradicts the claim (and the code's own documentation, which promises a
cursor to the first newly inserted element). -/
theorem C9_range_insert_cursor_bug :
    (insertRange 255
      (run 255 ([.ins false 10, .ins false 20, .del 0] : List (Op Nat))).m
      [(true, 30)]).map (fun p => p.2) = some 2 ∧
    (insertRange 255
      (run 255 ([.ins false 10, .ins false 20, .del 0] : List (Op Nat))).m
      [(true, 30)]).map (fun p => p.1.data.length) = some 2 ∧
    (insertRange 255
      (run 255 ([.ins false 10, .ins false 20, .del 0] : List (Op Nat))).m
      [(true, 30)]).map (fun p => p.1.data) =
        some [(1, some 20), (2, some 30)] := by
  decide

/-- C10: clear empties the slots and the size but keeps the ticket allocator:
after clearing a reachable container, every ticket issued by later inserts
(along any continuation trace) is strictly greater than every ticket issued
before the clear, and looking up any pre-clear ticket after the clear and any
amount of re-insertion still reports it absent. -/
theorem C10_clear_keeps_allocator (tmax : Nat) (ops1 ops2 : List (Op α)) :
    (clear (run tmax ops1).m).data = [] ∧
    (clear (run tmax ops1).m).filledItems = 0 ∧
    (clear (run tmax ops1).m).nextId = (run tmax ops1).m.nextId ∧
    (∀ a ∈ (run tmax ops1).issued,
      ∀ c ∈ (runFrom tmax ⟨clear (run tmax ops1).m, [], []⟩ ops2).issued,
        a < c) ∧
    (∀ a ∈ (run tmax ops1).issued,
      count (runFrom tmax ⟨clear (run tmax ops1).m, [], []⟩ ops2).m a
        = 0) := by
  have hinv := inv_run tmax ops1
  refine ⟨rfl, rfl, rfl, ?_, ?_⟩
  · intro a ha c hc
    rcases hinv.issued_lt a ha with h | h
    · rcases runFrom_issued_ge tmax ⟨clear (run tmax ops1).m, [], []⟩ ops2 c hc
        with h2 | h2
      · simp at h2
      · have hni : (⟨clear (run tmax ops1).m, [], []⟩ : RunState α).m.nextId =
            (run tmax ops1).m.nextId := rfl
        omega
    · have hov : (⟨clear (run tmax ops1).m, [], []⟩ :
          RunState α).m.overflow = true := h.2
      have hiss := runFrom_issued_of_overflow tmax
        ⟨clear (run tmax ops1).m, [], []⟩ ops2 hov
      rw [hiss] at hc
      simp at hc
  · intro a ha
    rcases hinv.issued_lt a ha with h | h
    · have hnone : lookup
          (runFrom tmax ⟨clear (run tmax ops1).m, [], []⟩ ops2).m.data a
            = none := by
        apply lookup_eq_none_of_no_key
        intro e he
        rcases runFrom_keys_ge tmax ⟨clear (run tmax ops1).m, [], []⟩ ops2 e he
          with ⟨y, hy, _⟩ | h2
        · simp [clear] at hy
        · have hni : (⟨clear (run tmax ops1).m, [], []⟩ :
              RunState α).m.nextId = (run tmax ops1).m.nextId := rfl
          omega
      simp [count, hnone]
    · have hov : (⟨clear (run tmax ops1).m, [], []⟩ :
          RunState α).m.overflow = true := h.2
      have hd := runFrom_data_nil_of_overflow tmax
        ⟨clear (run tmax ops1).m, [], []⟩ ops2 hov rfl
      simp [count, lookup, lower_bound, hd]

end ClaimTheorems

end TicketMapModel
